import Mathlib

/-!
Shallow embedding of the RustyMineSweeper library (src/src/lib.rs) and
verification of its specification claims.

The Rust crate provides one generic grid type `Board<T>` (a `Vec<Vec<T>>`
together with `width` and `height` fields) and two games built on it:

* `Board<isize>` is the Minesweeper board (`-10` encodes a mine, `-1` an
  untouched square, `10` a flagged square, `0..=8` revealed proximity
  counts), with `check_square` (proximity counting) and `update_board`
  (the reveal operation);
* `Board<bool>` is the Chomp board (`true` = cell still on the board),
  with `chomp`, `is_lost`, `winning_move`, `count_affected_squares`,
  `find_smallest_chomp` and `ai_make_move`.

Vectors become `List`s, `usize` becomes `Nat` (Rust's `saturating_sub`
is `Nat` truncated subtraction), `isize` becomes `Int`, and in-place
mutation becomes explicit state passing.  Iterator combinators such as
`iter().enumerate()` are modelled by small index-passing recursors
defined below (`anyIdx`, `countIdx`, `sumIdx`, `mapIdx2` built out of
`List.mapIdx`).  Rust indexing `board[y][x]` panics when out of range;
the embedding uses `Option`-valued access and the theorems carry the
well-formedness and bounds hypotheses under which the Rust code does
not panic.
-/

namespace RustyMine

/-- Embedding of `Board<T>` from src/src/lib.rs: a vector of rows plus
`width` and `height` fields (the `PhantomData` marker carries no data and
is dropped). -/
structure Board (T : Type) where
  board : List (List T)
  width : Nat
  height : Nat
deriving Repr, DecidableEq

/-- Well-formedness invariant maintained by every constructor and
mutator of the Rust crate: there are `height` rows and each row has
`width` entries. -/
def Board.WF {T : Type} (b : Board T) : Prop :=
  b.board.length = b.height ∧ ∀ row ∈ b.board, row.length = b.width

instance {T : Type} (b : Board T) : Decidable b.WF := by
  unfold Board.WF; infer_instance

/-- Embedding of `Board::get`: `self.board.get(y).and_then(|row| row.get(x))`. -/
def Board.get {T : Type} (b : Board T) (x y : Nat) : Option T :=
  b.board[y]?.bind (fun row => row[x]?)

/-- Embedding of `Board::set`: writes `value` at `(x, y)` when
`y < self.height && x < self.width`, otherwise does nothing. -/
def Board.set {T : Type} (b : Board T) (x y : Nat) (v : T) : Board T :=
  if y < b.height ∧ x < b.width then
    { b with board := b.board.modify (fun row => row.set x v) y }
  else b

/-- Embedding of `impl Clone for Board<T>`: a fresh vector is built by
pushing `row.clone()` for each row (element clone is the identity on the
embedded values). -/
def Board.clone {T : Type} (b : Board T) : Board T :=
  { board := b.board.map (fun row => row.map (fun v => v)),
    width := b.width,
    height := b.height }

/-- Embedding of `Board::boolean_board`: `height` rows of `width` cells,
all `true`. -/
def booleanBoard (width height : Nat) : Board Bool :=
  { board := List.replicate height (List.replicate width true),
    width := width,
    height := height }

/-- Embedding of `Board::isize_board`: `height` rows of `width` cells,
all `-1`. -/
def isizeBoard (width height : Nat) : Board Int :=
  { board := List.replicate height (List.replicate width (-1 : Int)),
    width := width,
    height := height }

/-- Model of `iter().enumerate().any(...)`-style loops: does some element,
paired with its index, satisfy the Boolean predicate? -/
def anyIdx {α : Type} : (Nat → α → Bool) → List α → Bool
  | _, [] => false
  | p, a :: l => p 0 a || anyIdx (fun i x => p (i + 1) x) l

/-- Model of counting loops over `iter().enumerate()`. -/
def countIdx {α : Type} : (Nat → α → Bool) → List α → Nat
  | _, [] => 0
  | p, a :: l => (if p 0 a then 1 else 0) + countIdx (fun i x => p (i + 1) x) l

/-- Model of accumulating loops over `iter().enumerate()` that add a
number per element. -/
def sumIdx {α : Type} : (Nat → α → Nat) → List α → Nat
  | _, [] => 0
  | f, a :: l => f 0 a + sumIdx (fun i x => f (i + 1) x) l

/-- Embedding of `Board::<bool>::chomp`: out of bounds returns `false`
and leaves the grid alone; otherwise every cell `(x', y')` with
`(y' ≥ y ∧ x' = x) ∨ (y' = y ∧ x' ≥ x)` is set to `false` and the call
returns `true`.  The result pairs the new board with the returned Bool. -/
def Board.chomp (b : Board Bool) (x y : Nat) : Board Bool × Bool :=
  if x ≥ b.width ∨ y ≥ b.height then (b, false)
  else
    ({ b with
        board := b.board.mapIdx (fun yi row =>
          row.mapIdx (fun xi e =>
            if (yi ≥ y ∧ xi = x) ∨ (yi = y ∧ xi ≥ x) then false else e)) },
      true)

/-- Embedding of `Board::<bool>::is_lost`: scan all cells; if any cell
off the origin is still `true` the game is not lost; otherwise the
answer is the value stored at `(0, 0)` (Rust indexes `board[0][0]`,
which panics on an empty grid; the embedding defaults to `false` there
and the theorems assume a nonempty well-formed grid). -/
def Board.isLost (b : Board Bool) : Bool :=
  if anyIdx (fun y row =>
       anyIdx (fun x sq => sq && (decide (0 < x) || decide (0 < y))) row) b.board
  then false
  else (b.get 0 0).getD false

/-- Number of `true` cells of a Chomp board; the decreasing measure of
`winning_move`'s recursion. -/
def Board.countTrue (b : Board Bool) : Nat :=
  (b.board.map (fun row => row.count true)).sum

/-- Fuel-indexed embedding of `Board::<bool>::winning_move`.  The Rust
function recurses on cloned, strictly smaller positions; the fuel makes
the recursion structural, and `winningMoveF_stable` below shows any fuel
above `countTrue` computes the same answer.  The candidate scan is
row-major (`for row in 0..height { for col in 0..width { ... } }`),
skipping `(0,0)` and cells that are already `false`; the first candidate
whose chomp leaves the opponent without a winning move is returned. -/
def winningMoveF : Nat → Board Bool → Option (Nat × Nat)
  | 0, _ => none
  | fuel + 1, posn =>
    if posn.isLost then none
    else
      (List.range posn.height).findSome? (fun row =>
        (List.range posn.width).findSome? (fun col =>
          if (row = 0 ∧ col = 0) ∨ ¬ posn.get col row = some true then none
          else if winningMoveF fuel ((posn.clone.chomp col row).1) = none then
            some (col, row)
          else none))

/-- Embedding of `Board::<bool>::winning_move`: run the search with
enough fuel for its own recursion depth. -/
def Board.winningMove (b : Board Bool) : Option (Nat × Nat) :=
  winningMoveF (b.countTrue + 1) b

/-- Embedding of `Board::<bool>::count_affected_squares`.  Note the Rust
source iterates `self.board.iter().skip(y).enumerate()`, so the row
index `y_index` restarts at `0` on the row that is actually row `y` of
the grid; the comparisons against `y` are made with that shifted index. -/
def Board.countAffectedSquares (b : Board Bool) (x y : Nat) : Nat :=
  sumIdx (fun yi row =>
      countIdx (fun xi sq =>
          sq && ((decide (xi ≥ x) && decide (yi = y)) ||
                 (decide (yi ≥ y) && decide (xi = x)))) row)
    (b.board.drop y)

/-- Rust's `usize::MAX` on a 64-bit target, the initial minimum used by
`find_smallest_chomp`. -/
def usizeMax : Nat := 2 ^ 64 - 1

/-- Embedding of `Board::<bool>::find_smallest_chomp`: row-major scan
keeping the first `true` cell whose `count_affected_squares` value is
strictly below the minimum seen so far (initially `usize::MAX`). -/
def Board.findSmallestChomp (b : Board Bool) : Option (Nat × Nat) :=
  (List.foldl
      (fun (acc : Option (Nat × Nat) × Nat) (yrow : Nat × List Bool) =>
        List.foldl
          (fun (acc2 : Option (Nat × Nat) × Nat) (xsq : Nat × Bool) =>
            if xsq.2 then
              let affected := b.countAffectedSquares xsq.1 yrow.1
              if affected < acc2.2 then (some (xsq.1, yrow.1), affected) else acc2
            else acc2)
          acc yrow.2.enum)
      (none, usizeMax) b.board.enum).1

/-- A candidate move in the sense of `winning_move`'s scan: a cell other
than the origin that is still `true` and whose chomp (applied to a clone
of the position) leaves the opponent with no winning move. -/
def isCandidate (b : Board Bool) (x y : Nat) : Prop :=
  ¬(y = 0 ∧ x = 0) ∧ b.get x y = some true ∧
    ((b.clone.chomp x y).1).winningMove = none

instance (b : Board Bool) (x y : Nat) : Decidable (isCandidate b x y) := by
  unfold isCandidate; infer_instance

/-- Specification-side definition following claim C3's wording: the
number of `true` cells a chomp anchored at `(x, y)` would remove, i.e.
the `true` cells inside the L-shaped affected set
`(y' ≥ y ∧ x' = x) ∨ (y' = y ∧ x' ≥ x)`, computed without mutating the
board.  This is what `count_affected_squares` is documented to compute;
compare `Board.countAffectedSquares` above, which shifts the row index. -/
def chompRemovedCount (b : Board Bool) (x y : Nat) : Nat :=
  sumIdx (fun yi row =>
      countIdx (fun xi sq =>
          sq && decide ((yi ≥ y ∧ xi = x) ∨ (yi = y ∧ xi ≥ x))) row)
    b.board

/-- Fuel-indexed embedding of `Board::<bool>::ai_make_move`.  The Rust
function loops until a move is made; the fuel counts loop iterations and
`none` means the loop did not finish within the given fuel.  On success
the result carries the mutated board and `some ()`, on defeat the
untouched board and `none` (the printed messages are dropped).  Note the
Rust code destructures the `(col, row)` pair returned by `winning_move`
as `(row_index, col_index)` and then calls `chomp(col_index, row_index)`,
so the chomp is attempted at the transposed coordinates. -/
def aiMakeMoveF : Nat → Board Bool → Option (Board Bool × Option Unit)
  | 0, _ => none
  | fuel + 1, b =>
    match b.clone.winningMove with
    | some (rowIndex, colIndex) =>
        if (b.chomp colIndex rowIndex).2 then
          some ((b.chomp colIndex rowIndex).1, some ())
        else aiMakeMoveF fuel b
    | none =>
        if b.isLost then some (b, none)
        else
          match b.findSmallestChomp with
          | some (x, y) => some ((b.chomp x y).1, some ())
          | none => some (b, none)

/-- Embedding of `Board::<isize>::check_square`: count the cells equal
to `-10` in the square `y.saturating_sub(1)..=y+1` ×
`x.saturating_sub(1)..=x+1`, skipping positions at or beyond
`width`/`height`.  Rust's saturating subtraction is `Nat` truncated
subtraction, and the inclusive range `a..=b` is `List.range' a (b+1-a)`.
The Rust counter is an `isize`, hence the `Int` result. -/
def Board.checkSquare (b : Board Int) (x y : Nat) : Int :=
  ((List.range' (y - 1) (y + 2 - (y - 1))).map (fun yi =>
    ((List.range' (x - 1) (x + 2 - (x - 1))).map (fun xi =>
      if xi ≥ b.width ∨ yi ≥ b.height then 0
      else if b.get xi yi = some (-10) then (1 : Int) else 0)).sum)).sum

/-- Specification-side definition following claim C9's wording: the
number of mine cells among the in-bounds positions of the 3×3
neighborhood centered at `(x, y)` (positions outside the grid contribute
nothing). -/
def neighborhoodMineCount (b : Board Int) (x y : Nat) : Nat :=
  ((List.range b.height).map (fun yi =>
    ((List.range b.width).map (fun xi =>
      if x ≤ xi + 1 ∧ xi ≤ x + 1 ∧ y ≤ yi + 1 ∧ yi ≤ y + 1 ∧
         b.get xi yi = some (-10)
      then 1 else 0)).sum)).sum

/-- Indicator used to relate `check_square` to `neighborhoodMineCount`:
1 when `(xi, yi)` lies in the 3×3 window around `(x, y)` and holds a
mine, 0 otherwise. -/
def mineIndicator (b : Board Int) (x y xi yi : Nat) : Int :=
  if x ≤ xi + 1 ∧ xi ≤ x + 1 ∧ y ≤ yi + 1 ∧ yi ≤ y + 1 ∧
     b.get xi yi = some (-10)
  then 1 else 0

/-- Row total of `mineIndicator` over one full grid row. -/
def rowMineSum (b : Board Int) (x y yi : Nat) : Int :=
  ((List.range b.width).map (fun xi => mineIndicator b x y xi yi)).sum

/-- Embedding of `Board::<isize>::update_board`: first the clicked
square receives `check_square(x, y)`, then each surrounding square of
the 3×3 neighborhood (in the same saturated inclusive ranges as
`check_square`, skipping the clicked square, and only when inside
`width`/`height`) is reassigned `check_square` recomputed on the board
as mutated so far.  Rust writes with direct indexing `board[y][x]`; the
embedding reuses `Board.set`, which coincides with it on in-bounds
coordinates of well-formed boards. -/
def Board.updateBoard (b : Board Int) (x y : Nat) : Board Int :=
  (List.range' (y - 1) (y + 2 - (y - 1))).foldl (fun acc yi =>
      (List.range' (x - 1) (x + 2 - (x - 1))).foldl (fun acc2 xi =>
          if xi = x ∧ yi = y then acc2
          else if xi < acc2.width ∧ yi < acc2.height then
            acc2.set xi yi (acc2.checkSquare xi yi)
          else acc2)
        acc)
    (b.set x y (b.checkSquare x y))

/-! ## Basic lemmas about the embedding -/

theorem getElem?_mapIdx {α β : Type} (l : List α) (f : Nat → α → β) (i : Nat) :
    (l.mapIdx f)[i]? = (l[i]?).map (f i) := by
  induction l generalizing f i with
  | nil => simp
  | cons a l ih =>
    rw [List.mapIdx_cons]
    cases i with
    | zero => simp
    | succ n => simp [ih (fun j => f (j + 1)) n]

theorem clone_eq {T : Type} (b : Board T) : b.clone = b := by
  cases b with
  | mk board w h => simp [Board.clone, List.map_id']

theorem chomp_snd (b : Board Bool) (x y : Nat) (hx : x < b.width)
    (hy : y < b.height) : (b.chomp x y).2 = true := by
  unfold Board.chomp
  rw [if_neg (by omega)]

theorem chomp_width (b : Board Bool) (x y : Nat) :
    (b.chomp x y).1.width = b.width := by
  unfold Board.chomp
  split <;> rfl

theorem chomp_height (b : Board Bool) (x y : Nat) :
    (b.chomp x y).1.height = b.height := by
  unfold Board.chomp
  split <;> rfl

theorem chomp_get (b : Board Bool) (x y : Nat) (hx : x < b.width)
    (hy : y < b.height) (xi yi : Nat) :
    ((b.chomp x y).1).get xi yi =
      (b.get xi yi).map
        (fun e => if (yi ≥ y ∧ xi = x) ∨ (yi = y ∧ xi ≥ x) then false else e) := by
  unfold Board.chomp
  rw [if_neg (by omega)]
  unfold Board.get
  simp only [getElem?_mapIdx]
  cases h : b.board[yi]? with
  | none => simp [h]
  | some row => simp [h, getElem?_mapIdx]

/-! ## Claim C2: the effect of an in-bounds chomp -/

/-- C2: for every board and in-bounds `(x, y)`, `chomp(x, y)` returns
`true` and sets to `false` exactly the cells of the L-shape
`(y' ≥ y ∧ x' = x) ∨ (y' = y ∧ x' ≥ x)`, leaving every other cell
unchanged; in particular on a 5×5 all-`true` board, `chomp(4, 4)` leaves
every cell `true` except `(4, 4)`. -/
theorem chomp_spec (b : Board Bool) (x y : Nat) (hx : x < b.width)
    (hy : y < b.height) :
    (b.chomp x y).2 = true ∧
    (∀ xi yi, ((b.chomp x y).1).get xi yi =
        if (yi ≥ y ∧ xi = x) ∨ (yi = y ∧ xi ≥ x)
        then (b.get xi yi).map (fun _ => false)
        else b.get xi yi) ∧
    (∀ xi, xi < 5 → ∀ yi, yi < 5 →
        (((booleanBoard 5 5).chomp 4 4).1).get xi yi =
          if xi = 4 ∧ yi = 4 then some false else some true) := by
  refine ⟨chomp_snd b x y hx hy, ?_, by decide⟩
  intro xi yi
  rw [chomp_get b x y hx hy]
  by_cases hc : (yi ≥ y ∧ xi = x) ∨ (yi = y ∧ xi ≥ x)
  · simp only [if_pos hc]
  · simp only [if_neg hc]
    cases b.get xi yi <;> rfl

/-- Witness for C2 at the 5×5 board from the claim's scenario. -/
theorem chomp_spec_witness :
    ((booleanBoard 5 5).chomp 4 4).2 = true ∧
    (((booleanBoard 5 5).chomp 4 4).1).get 2 3 =
      (if ((3 : Nat) ≥ 4 ∧ (2 : Nat) = 4) ∨ ((3 : Nat) = 4 ∧ (2 : Nat) ≥ 4)
       then ((booleanBoard 5 5).get 2 3).map (fun _ => false)
       else (booleanBoard 5 5).get 2 3) :=
  ⟨(chomp_spec (booleanBoard 5 5) 4 4 (by decide) (by decide)).1,
   (chomp_spec (booleanBoard 5 5) 4 4 (by decide) (by decide)).2.1 2 3⟩

/-! ## Claim C7: what chomp at the origin actually clears -/

/-- C7 counterexample: the claim says `chomp(0,0)` empties every cell of
a 5×5 board, but cell `(1, 1)` is still `true` afterwards. -/
theorem chomp_origin_counterexample :
    (((booleanBoard 5 5).chomp 0 0).1).get 1 1 = some true ∧
    ¬(∀ xi, xi < 5 → ∀ yi, yi < 5 →
        (((booleanBoard 5 5).chomp 0 0).1).get xi yi = some false) := by
  decide

/-- C7 amended: `chomp(0, 0)` sets to `false` exactly the cells in row 0
or column 0, leaving every other cell unchanged; on a 5×5 all-`true`
board the 16 cells with `x ≥ 1` and `y ≥ 1` remain `true` while row 0
and column 0 become `false`. -/
theorem chomp_origin_spec (b : Board Bool) (hw : 0 < b.width)
    (hh : 0 < b.height) :
    (∀ xi yi, ((b.chomp 0 0).1).get xi yi =
        if xi = 0 ∨ yi = 0 then (b.get xi yi).map (fun _ => false)
        else b.get xi yi) ∧
    (∀ xi, xi < 5 → ∀ yi, yi < 5 →
        (((booleanBoard 5 5).chomp 0 0).1).get xi yi =
          if xi = 0 ∨ yi = 0 then some false else some true) := by
  refine ⟨?_, by decide⟩
  intro xi yi
  rw [(chomp_spec b 0 0 hw hh).2.1 xi yi]
  by_cases hc : xi = 0 ∨ yi = 0
  · rw [if_pos hc, if_pos (by omega)]
  · rw [if_neg hc, if_neg (by omega)]

/-- Witness for C7's amended theorem at the 5×5 scenario board. -/
theorem chomp_origin_spec_witness :
    (((booleanBoard 5 5).chomp 0 0).1).get 3 2 =
      (if (3 : Nat) = 0 ∨ (2 : Nat) = 0
       then ((booleanBoard 5 5).get 3 2).map (fun _ => false)
       else (booleanBoard 5 5).get 3 2) :=
  (chomp_origin_spec (booleanBoard 5 5) (by decide) (by decide)).1 3 2

/-! ## Counting true cells: the decreasing measure of the search -/

theorem count_head_le (f0 : Bool → Bool) (a : Bool) (hf : f0 a = true → a = true) :
    (if (f0 a == true) = true then (1 : Nat) else 0) ≤
      if (a == true) = true then 1 else 0 := by
  cases hfa : f0 a with
  | false => simp
  | true =>
    have ha := hf hfa
    subst ha
    exact le_refl _

theorem count_mapIdx_le (r : List Bool) (f : Nat → Bool → Bool)
    (hf : ∀ i a, f i a = true → a = true) :
    (r.mapIdx f).count true ≤ r.count true := by
  induction r generalizing f with
  | nil => simp
  | cons a r ih =>
    rw [List.mapIdx_cons, List.count_cons, List.count_cons]
    exact Nat.add_le_add (ih (fun j => f (j + 1)) (fun j a => hf (j + 1) a))
      (count_head_le (f 0) a (hf 0 a))

theorem count_mapIdx_lt (r : List Bool) (f : Nat → Bool → Bool)
    (hf : ∀ i a, f i a = true → a = true)
    (i : Nat) (hi : r[i]? = some true) (hfi : f i true = false) :
    (r.mapIdx f).count true < r.count true := by
  induction r generalizing f i with
  | nil => simp at hi
  | cons a r ih =>
    rw [List.mapIdx_cons, List.count_cons, List.count_cons]
    cases i with
    | zero =>
      have ha : a = true := by simpa using hi
      subst ha
      rw [hfi]
      have h1 := count_mapIdx_le r (fun j => f (j + 1)) (fun j a => hf (j + 1) a)
      simp
      omega
    | succ n =>
      have h1 := ih (fun j => f (j + 1)) (fun j a => hf (j + 1) a) n
        (by simpa using hi) hfi
      have h2 := count_head_le (f 0) a (hf 0 a)
      omega

theorem sum_counts_mapIdx_le (l : List (List Bool)) (F : Nat → List Bool → List Bool)
    (hF : ∀ yi row, (F yi row).count true ≤ row.count true) :
    ((l.mapIdx F).map (fun row => row.count true)).sum ≤
      (l.map (fun row => row.count true)).sum := by
  induction l generalizing F with
  | nil => simp
  | cons r l ih =>
    rw [List.mapIdx_cons]
    simp only [List.map_cons, List.sum_cons]
    exact Nat.add_le_add (hF 0 r)
      (ih (fun i => F (i + 1)) (fun i row => hF (i + 1) row))

theorem sum_counts_mapIdx_lt (l : List (List Bool)) (F : Nat → List Bool → List Bool)
    (hF : ∀ yi row, (F yi row).count true ≤ row.count true)
    (yi : Nat) (row₀ : List Bool) (hrow : l[yi]? = some row₀)
    (hs : (F yi row₀).count true < row₀.count true) :
    ((l.mapIdx F).map (fun row => row.count true)).sum <
      (l.map (fun row => row.count true)).sum := by
  induction l generalizing F yi with
  | nil => simp at hrow
  | cons r l ih =>
    rw [List.mapIdx_cons]
    simp only [List.map_cons, List.sum_cons]
    cases yi with
    | zero =>
      have hr : r = row₀ := by simpa using hrow
      subst hr
      exact Nat.add_lt_add_of_lt_of_le hs
        (sum_counts_mapIdx_le l (fun i => F (i + 1)) (fun i row => hF (i + 1) row))
    | succ n =>
      exact Nat.add_lt_add_of_le_of_lt (hF 0 r)
        (ih (fun i => F (i + 1)) (fun i row => hF (i + 1) row) n
          (by simpa using hrow) hs)

theorem countTrue_chomp_lt (b : Board Bool) (x y : Nat) (hx : x < b.width)
    (hy : y < b.height) (ht : b.get x y = some true) :
    ((b.chomp x y).1).countTrue < b.countTrue := by
  obtain ⟨row₀, hrow, hcell⟩ : ∃ row, b.board[y]? = some row ∧ row[x]? = some true := by
    unfold Board.get at ht
    cases h : b.board[y]? with
    | none => rw [h] at ht; simp at ht
    | some row => exact ⟨row, rfl, by rw [h] at ht; simpa using ht⟩
  have hinner : ∀ yi : Nat, ∀ i : Nat, ∀ a : Bool,
      (if (yi ≥ y ∧ i = x) ∨ (yi = y ∧ i ≥ x) then false else a) = true → a = true := by
    intro yi i a h
    by_cases hc : (yi ≥ y ∧ i = x) ∨ (yi = y ∧ i ≥ x)
    · rw [if_pos hc] at h; exact absurd h (by simp)
    · rwa [if_neg hc] at h
  unfold Board.chomp
  rw [if_neg (by omega)]
  unfold Board.countTrue
  dsimp only
  apply sum_counts_mapIdx_lt _ _ ?_ y row₀ hrow ?_
  · intro yi row
    exact count_mapIdx_le row _ (hinner yi)
  · apply count_mapIdx_lt row₀ _ (hinner y) x hcell
    rw [if_pos (Or.inl ⟨le_refl y, rfl⟩)]

/-! ## Fuel does not matter: termination of the winning-move search -/

theorem findSome?_congr {α β : Type} (l : List α) (f g : α → Option β)
    (h : ∀ a ∈ l, f a = g a) : l.findSome? f = l.findSome? g := by
  induction l with
  | nil => rfl
  | cons a l ih =>
    rw [List.findSome?_cons, List.findSome?_cons, h a (List.mem_cons_self a l)]
    cases g a
    · exact ih (fun a' ha' => h a' (List.mem_cons_of_mem a ha'))
    · rfl

theorem winningMoveF_stable :
    ∀ (n : Nat) (b : Board Bool), b.countTrue ≤ n →
      ∀ f₁ f₂, b.countTrue < f₁ → b.countTrue < f₂ →
        winningMoveF f₁ b = winningMoveF f₂ b := by
  intro n
  induction n using Nat.strong_induction_on with
  | _ n ih =>
    intro b hbn f₁ f₂ h1 h2
    obtain ⟨a, rfl⟩ : ∃ a, f₁ = a + 1 := ⟨f₁ - 1, by omega⟩
    obtain ⟨c, rfl⟩ : ∃ c, f₂ = c + 1 := ⟨f₂ - 1, by omega⟩
    rw [winningMoveF, winningMoveF]
    by_cases hl : b.isLost = true
    · rw [if_pos hl, if_pos hl]
    · rw [if_neg hl, if_neg hl]
      apply findSome?_congr
      intro row hrow
      apply findSome?_congr
      intro col hcol
      rw [List.mem_range] at hrow hcol
      by_cases hg : (row = 0 ∧ col = 0) ∨ ¬ b.get col row = some true
      · rw [if_pos hg, if_pos hg]
      · rw [if_neg hg, if_neg hg]
        push_neg at hg
        have hdec : ((b.clone.chomp col row).1).countTrue < b.countTrue := by
          rw [clone_eq]
          exact countTrue_chomp_lt b col row hcol hrow hg.2
        have hrec : winningMoveF a ((b.clone.chomp col row).1) =
            winningMoveF c ((b.clone.chomp col row).1) :=
          ih ((b.clone.chomp col row).1).countTrue (by omega) _ le_rfl a c
            (by omega) (by omega)
        rw [hrec]

theorem winningMoveF_eq_winningMove (b : Board Bool) (fuel : Nat)
    (h : b.countTrue < fuel) : winningMoveF fuel b = b.winningMove :=
  winningMoveF_stable b.countTrue b le_rfl fuel (b.countTrue + 1) h
    (Nat.lt_succ_self _)

theorem winningMove_unfold (b : Board Bool) :
    b.winningMove =
      if b.isLost then none
      else
        (List.range b.height).findSome? (fun row =>
          (List.range b.width).findSome? (fun col =>
            if (row = 0 ∧ col = 0) ∨ ¬ b.get col row = some true then none
            else if ((b.clone.chomp col row).1).winningMove = none then
              some (col, row)
            else none)) := by
  show winningMoveF (b.countTrue + 1) b = _
  rw [winningMoveF]
  by_cases hl : b.isLost = true
  · rw [if_pos hl, if_pos hl]
  · rw [if_neg hl, if_neg hl]
    apply findSome?_congr
    intro row hrow
    apply findSome?_congr
    intro col hcol
    rw [List.mem_range] at hrow hcol
    by_cases hg : (row = 0 ∧ col = 0) ∨ ¬ b.get col row = some true
    · rw [if_pos hg, if_pos hg]
    · rw [if_neg hg, if_neg hg]
      push_neg at hg
      have hdec : ((b.clone.chomp col row).1).countTrue < b.countTrue := by
        rw [clone_eq]
        exact countTrue_chomp_lt b col row hcol hrow hg.2
      rw [winningMoveF_eq_winningMove ((b.clone.chomp col row).1) b.countTrue hdec]

/-! ## Claim C8: termination of winning_move -/

/-- C8: `winning_move` terminates on every board: every recursive call
is on a cloned position with strictly fewer `true` cells, so any fuel
above the number of `true` cells computes the fixed answer
`Board.winningMove`, and on a well-formed board that number is at most
`width * height`. -/
theorem winning_move_termination (b : Board Bool) :
    (∀ x y, x < b.width → y < b.height → b.get x y = some true →
        ((b.clone.chomp x y).1).countTrue < b.countTrue) ∧
    (∀ fuel, b.countTrue < fuel → winningMoveF fuel b = b.winningMove) ∧
    (b.WF → b.countTrue ≤ b.width * b.height) := by
  refine ⟨?_, ?_, ?_⟩
  · intro x y hx hy ht
    rw [clone_eq]
    exact countTrue_chomp_lt b x y hx hy ht
  · intro fuel h
    exact winningMoveF_eq_winningMove b fuel h
  · intro hwf
    unfold Board.countTrue
    have hbound : ∀ c ∈ b.board.map (fun row => row.count true), c ≤ b.width := by
      intro c hc
      rw [List.mem_map] at hc
      obtain ⟨row, hrowmem, rfl⟩ := hc
      exact le_trans (List.count_le_length _ _) (le_of_eq (hwf.2 row hrowmem))
    have h := List.sum_le_card_nsmul _ b.width hbound
    rw [List.length_map, hwf.1, smul_eq_mul, Nat.mul_comm] at h
    exact h

/-- Witness for C8 at the 2×2 all-true board. -/
theorem winning_move_termination_witness :
    ((booleanBoard 2 2).clone.chomp 1 1).1.countTrue < (booleanBoard 2 2).countTrue ∧
    winningMoveF 9 (booleanBoard 2 2) = (booleanBoard 2 2).winningMove ∧
    (booleanBoard 2 2).countTrue ≤ (booleanBoard 2 2).width * (booleanBoard 2 2).height :=
  ⟨(winning_move_termination (booleanBoard 2 2)).1 1 1 (by decide) (by decide)
      (by decide),
   (winning_move_termination (booleanBoard 2 2)).2.1 9 (by decide),
   (winning_move_termination (booleanBoard 2 2)).2.2 (by decide)⟩

/-! ## First-match characterization of findSome? over an index range -/

theorem findSome?_range_eq_none {β : Type} (n : Nat) (f : Nat → Option β) :
    (List.range n).findSome? f = none ↔ ∀ i, i < n → f i = none := by
  rw [List.findSome?_eq_none_iff]
  constructor
  · intro h i hi
    exact h i (List.mem_range.mpr hi)
  · intro h x hx
    exact h x (List.mem_range.mp hx)

theorem findSome?_range_eq_some {β : Type} (n : Nat) (f : Nat → Option β) (v : β) :
    (List.range n).findSome? f = some v ↔
      ∃ i, i < n ∧ f i = some v ∧ ∀ j, j < i → f j = none := by
  induction n generalizing v with
  | zero => simp
  | succ n ih =>
    rw [List.range_succ, List.findSome?_append]
    cases h : (List.range n).findSome? f with
    | some w =>
      have hor : (some w).or (List.findSome? f [n]) = some w := rfl
      rw [hor]
      obtain ⟨i, hin, hfi, hmin⟩ := (ih w).mp h
      constructor
      · intro heq
        rw [Option.some.injEq] at heq
        subst heq
        exact ⟨i, by omega, hfi, hmin⟩
      · rintro ⟨i', hi', hfi', hmin'⟩
        have hii : i = i' := by
          by_contra hne
          rcases Nat.lt_or_ge i i' with hlt | hge
          · rw [hmin' i hlt] at hfi
            exact Option.noConfusion hfi
          · have hlt : i' < i := by omega
            rw [hmin i' hlt] at hfi'
            exact Option.noConfusion hfi'
        subst hii
        rw [hfi] at hfi'
        exact hfi'
    | none =>
      rw [Option.none_or]
      have hsingle : List.findSome? f [n] = f n := by
        rw [List.findSome?_cons]
        cases f n <;> rfl
      rw [hsingle]
      have hall : ∀ i, i < n → f i = none := by
        intro i hi
        exact (List.findSome?_eq_none_iff.mp h) i (List.mem_range.mpr hi)
      constructor
      · intro hfn
        exact ⟨n, Nat.lt_succ_self n, hfn, hall⟩
      · rintro ⟨i', hi', hfi', hmin'⟩
        have hin : i' = n := by
          by_contra hne
          have hlt : i' < n := by omega
          rw [hall i' hlt] at hfi'
          exact Option.noConfusion hfi'
        subst hin
        exact hfi'

/-! ## Claim C1: the winning-move scan returns the first candidate -/

theorem innerScan_eq_none (b : Board Bool) (row col : Nat) :
    (if (row = 0 ∧ col = 0) ∨ ¬ b.get col row = some true then none
     else if ((b.clone.chomp col row).1).winningMove = none then some (col, row)
     else none) = none ↔ ¬ isCandidate b col row := by
  by_cases hg : (row = 0 ∧ col = 0) ∨ ¬ b.get col row = some true
  · rw [if_pos hg]
    refine iff_of_true rfl ?_
    rintro ⟨hno, htrue, _⟩
    rcases hg with h00 | hnt
    · exact hno h00
    · exact hnt htrue
  · rw [if_neg hg]
    rw [not_or, not_not] at hg
    by_cases hrec : ((b.clone.chomp col row).1).winningMove = none
    · rw [if_pos hrec]
      exact iff_of_false (fun h => Option.noConfusion h)
        (fun hn => hn ⟨hg.1, hg.2, hrec⟩)
    · rw [if_neg hrec]
      exact iff_of_true rfl (fun hc => hrec hc.2.2)

theorem innerScan_eq_some (b : Board Bool) (row col cx cy : Nat) :
    (if (row = 0 ∧ col = 0) ∨ ¬ b.get col row = some true then none
     else if ((b.clone.chomp col row).1).winningMove = none then some (col, row)
     else none) = some (cx, cy) ↔
      isCandidate b col row ∧ cx = col ∧ cy = row := by
  by_cases hg : (row = 0 ∧ col = 0) ∨ ¬ b.get col row = some true
  · rw [if_pos hg]
    refine iff_of_false (fun h => Option.noConfusion h) ?_
    rintro ⟨⟨hno, htrue, _⟩, _, _⟩
    rcases hg with h00 | hnt
    · exact hno h00
    · exact hnt htrue
  · rw [if_neg hg]
    rw [not_or, not_not] at hg
    by_cases hrec : ((b.clone.chomp col row).1).winningMove = none
    · rw [if_pos hrec]
      constructor
      · intro h
        rw [Option.some.injEq, Prod.mk.injEq] at h
        exact ⟨⟨hg.1, hg.2, hrec⟩, h.1.symm, h.2.symm⟩
      · rintro ⟨_, rfl, rfl⟩
        rfl
    · rw [if_neg hrec]
      exact iff_of_false (fun h => Option.noConfusion h)
        (fun hc => hrec hc.1.2.2)

/-- C1: if `is_lost()` holds, `winning_move` returns `none`; otherwise
it returns `none` exactly when no cell is a candidate (off-origin, still
`true`, and chomping it on a clone leaves the opponent without a winning
move), and when it returns `some (x, y)` that cell is a candidate and no
cell earlier in row-major order is one. -/
theorem winning_move_spec (b : Board Bool) :
    (b.isLost = true → b.winningMove = none) ∧
    (b.isLost = false →
      ((b.winningMove = none ↔
          ∀ x y, x < b.width → y < b.height → ¬ isCandidate b x y) ∧
       (∀ x y, b.winningMove = some (x, y) →
          x < b.width ∧ y < b.height ∧ isCandidate b x y ∧
          ∀ x' y', x' < b.width → y' < b.height →
            (y' < y ∨ (y' = y ∧ x' < x)) → ¬ isCandidate b x' y'))) := by
  constructor
  · intro hl
    rw [winningMove_unfold, if_pos hl]
  · intro hl
    have hunfold : b.winningMove =
        (List.range b.height).findSome? (fun row =>
          (List.range b.width).findSome? (fun col =>
            if (row = 0 ∧ col = 0) ∨ ¬ b.get col row = some true then none
            else if ((b.clone.chomp col row).1).winningMove = none then
              some (col, row)
            else none)) := by
      rw [winningMove_unfold, if_neg (by simp [hl])]
    constructor
    · rw [hunfold, findSome?_range_eq_none]
      constructor
      · intro h x y hx hy
        have hrow := h y hy
        rw [findSome?_range_eq_none] at hrow
        have hcol := hrow x hx
        rw [innerScan_eq_none] at hcol
        exact hcol
      · intro h row hrow
        rw [findSome?_range_eq_none]
        intro col hcol
        rw [innerScan_eq_none]
        exact h col row hcol hrow
    · intro x y hsome
      rw [hunfold, findSome?_range_eq_some] at hsome
      obtain ⟨row, hrowlt, hrowsome, hrowmin⟩ := hsome
      rw [findSome?_range_eq_some] at hrowsome
      obtain ⟨col, hcollt, hcolsome, hcolmin⟩ := hrowsome
      rw [innerScan_eq_some] at hcolsome
      obtain ⟨hcand, hxe, hye⟩ := hcolsome
      subst hxe
      subst hye
      refine ⟨hcollt, hrowlt, hcand, ?_⟩
      intro x' y' hx' hy' hord
      rcases hord with hlt | ⟨heq, hxlt⟩
      · have hy'none := hrowmin y' hlt
        rw [findSome?_range_eq_none] at hy'none
        have h2 := hy'none x' hx'
        rw [innerScan_eq_none] at h2
        exact h2
      · subst heq
        have h2 := hcolmin x' hxlt
        rw [innerScan_eq_none] at h2
        exact h2

/-- Witness for C1 at the 2×2 all-true board, where the scan returns
`(1, 1)`. -/
theorem winning_move_spec_witness :
    isCandidate (booleanBoard 2 2) 1 1 ∧ ¬ isCandidate (booleanBoard 2 2) 1 0 := by
  have h := ((winning_move_spec (booleanBoard 2 2)).2 (by decide)).2 1 1 (by decide)
  exact ⟨h.2.2.1, h.2.2.2 1 0 (by decide) (by decide) (Or.inl (by decide))⟩

/-! ## Claim C6: what is_lost computes -/

theorem anyIdx_eq_true {α : Type} (l : List α) (p : Nat → α → Bool) :
    anyIdx p l = true ↔ ∃ i a, l[i]? = some a ∧ p i a = true := by
  induction l generalizing p with
  | nil => simp [anyIdx]
  | cons x l ih =>
    simp only [anyIdx, Bool.or_eq_true]
    rw [ih (fun i a => p (i + 1) a)]
    constructor
    · rintro (h0 | ⟨i, a, hget, hp⟩)
      · exact ⟨0, x, by simp, h0⟩
      · exact ⟨i + 1, a, by simpa using hget, hp⟩
    · rintro ⟨i, a, hget, hp⟩
      cases i with
      | zero =>
        have hxa : x = a := by simpa using hget
        exact Or.inl (by rw [hxa]; exact hp)
      | succ n => exact Or.inr ⟨n, a, by simpa using hget, hp⟩

theorem isLost_scan_iff (b : Board Bool) :
    anyIdx (fun y row =>
        anyIdx (fun x sq => sq && (decide (0 < x) || decide (0 < y))) row)
      b.board = true ↔
      ∃ x y, (0 < x ∨ 0 < y) ∧ b.get x y = some true := by
  rw [anyIdx_eq_true]
  constructor
  · rintro ⟨y, row, hrow, hinner⟩
    rw [anyIdx_eq_true] at hinner
    obtain ⟨x, sq, hsq, hcond⟩ := hinner
    have hc : sq = true ∧ (0 < x ∨ 0 < y) := by
      simp only [Bool.and_eq_true, Bool.or_eq_true, decide_eq_true_eq] at hcond
      exact ⟨hcond.1, hcond.2⟩
    refine ⟨x, y, hc.2, ?_⟩
    unfold Board.get
    rw [hrow]
    show row[x]? = some true
    rw [hsq, hc.1]
  · rintro ⟨x, y, hxy, hget⟩
    unfold Board.get at hget
    cases hrow : b.board[y]? with
    | none => rw [hrow] at hget; simp at hget
    | some row =>
      rw [hrow] at hget
      have hx : row[x]? = some true := by simpa using hget
      refine ⟨y, row, hrow, ?_⟩
      rw [anyIdx_eq_true]
      refine ⟨x, true, hx, ?_⟩
      rcases hxy with h | h <;> simp [h]

/-- C6: on a nonempty well-formed board, `is_lost()` returns `false` as
soon as any cell off the origin is `true`, and otherwise returns exactly
the Boolean stored at `(0, 0)`; in particular on the 1×1 all-true board
it returns `true` and `winning_move` returns `none`. -/
theorem is_lost_spec (b : Board Bool) (_hwf : b.WF) (_hw : 0 < b.width)
    (_hh : 0 < b.height) :
    ((∃ x y, (0 < x ∨ 0 < y) ∧ b.get x y = some true) → b.isLost = false) ∧
    (∀ v, b.get 0 0 = some v →
        (∀ x y, (0 < x ∨ 0 < y) → ¬ b.get x y = some true) → b.isLost = v) ∧
    ((booleanBoard 1 1).isLost = true ∧ (booleanBoard 1 1).winningMove = none) := by
  refine ⟨?_, ?_, by decide⟩
  · intro hex
    unfold Board.isLost
    rw [if_pos ((isLost_scan_iff b).mpr hex)]
  · intro v hv hall
    have hcond : ¬ (anyIdx (fun y row =>
        anyIdx (fun x sq => sq && (decide (0 < x) || decide (0 < y))) row)
          b.board = true) := by
      intro hcond
      obtain ⟨x, y, hxy, hget⟩ := (isLost_scan_iff b).mp hcond
      exact hall x y hxy hget
    unfold Board.isLost
    rw [if_neg hcond, hv]
    rfl

/-- Witness for C6 at the 2×2 all-true board, which is not lost. -/
theorem is_lost_spec_witness : (booleanBoard 2 2).isLost = false :=
  (is_lost_spec (booleanBoard 2 2) (by decide) (by decide) (by decide)).1
    ⟨1, 0, Or.inl (by decide), by decide⟩

/-! ## Claim C3: the affected-count heuristic is miscomputed -/

/-- C3 (code bug): on the 2×2 all-true board the true removal counts are
3, 2, 2, 1 for `(0,0)`, `(1,0)`, `(0,1)`, `(1,1)`, so the unique
minimizer in the claim's sense is `(1,1)`; but `count_affected_squares`
restarts its row index after `skip(y)` and reports 0 for both cells of
row 1, so `find_smallest_chomp` returns `(0, 1)` instead. -/
theorem find_smallest_chomp_bug :
    (booleanBoard 2 2).findSmallestChomp = some (0, 1) ∧
    chompRemovedCount (booleanBoard 2 2) 0 0 = 3 ∧
    chompRemovedCount (booleanBoard 2 2) 1 0 = 2 ∧
    chompRemovedCount (booleanBoard 2 2) 0 1 = 2 ∧
    chompRemovedCount (booleanBoard 2 2) 1 1 = 1 ∧
    (booleanBoard 2 2).countAffectedSquares 0 1 = 0 ∧
    (booleanBoard 2 2).countAffectedSquares 1 1 = 0 := by
  decide

/-! ## Claim C5: ai_make_move transposes the winning move -/

/-- C5 (code bug): on the 2×1 all-true board `winning_move` returns the
cell `(x, y) = (1, 0)`, but `ai_make_move` destructures that pair as
`(row_index, col_index)` and calls `chomp(col_index, row_index)`, i.e.
chomp at `(x, y) = (0, 1)`, which is out of bounds and fails, so the
loop never makes a move (the fuelled model returns `none` — loop not
finished — for every fuel). -/
theorem ai_make_move_swaps_coordinates :
    (booleanBoard 2 1).clone.winningMove = some (1, 0) ∧
    ((booleanBoard 2 1).chomp 1 0).2 = true ∧
    ((booleanBoard 2 1).chomp 0 1).2 = false ∧
    ∀ fuel, aiMakeMoveF fuel (booleanBoard 2 1) = none := by
  refine ⟨by decide, by decide, by decide, ?_⟩
  intro fuel
  induction fuel with
  | zero => rfl
  | succ n ih =>
    have hstep : aiMakeMoveF (n + 1) (booleanBoard 2 1) =
        aiMakeMoveF n (booleanBoard 2 1) := rfl
    rw [hstep]
    exact ih

/-- Witness for C5's fuelled statement at fuel 5. -/
theorem ai_make_move_swaps_coordinates_witness :
    aiMakeMoveF 5 (booleanBoard 2 1) = none :=
  ai_make_move_swaps_coordinates.2.2.2 5

/-! ## Claim C4 counterexample: reveal does change neighbors -/

/-- C4 counterexample: on a 2×2 Minesweeper board with a mine at
`(1, 1)`, revealing `(0, 0)` changes the neighbor `(0, 1)` from `-1`
(hidden) to `1` (its recomputed proximity), so the reveal does not
affect exactly one cell. -/
theorem update_board_changes_neighbor :
    (((isizeBoard 2 2).set 1 1 (-10)).updateBoard 0 0).get 0 1 = some 1 ∧
    ((isizeBoard 2 2).set 1 1 (-10)).get 0 1 = some (-1) := by
  decide

/-! ## Claim C10: clone is a value-identical deep copy -/

/-- C10: `clone()` produces a board equal to the original (same width,
height, and every cell), and since mutation is value-passing in this
embedding, applying `set` or `chomp` to the clone is the same as
applying it to the original and never touches the original value. -/
theorem clone_spec {T : Type} (g : Board T) :
    g.clone = g ∧
    g.clone.width = g.width ∧ g.clone.height = g.height ∧
    (∀ x y, g.clone.get x y = g.get x y) ∧
    (∀ x y (v : T), g.clone.set x y v = g.set x y v) ∧
    (∀ gb : Board Bool, ∀ x y, gb.clone.chomp x y = gb.chomp x y) := by
  have h := clone_eq g
  exact ⟨h, by rw [h], by rw [h], fun x y => by rw [h], fun x y v => by rw [h],
    fun gb x y => by rw [clone_eq]⟩

/-- Witness for C10 at a concrete 3×2 board. -/
theorem clone_spec_witness : (booleanBoard 3 2).clone = booleanBoard 3 2 :=
  (clone_spec (booleanBoard 3 2)).1

/-! ## Claim C9: check_square counts mines in the clipped 3×3 window -/

theorem get_eq_none_oob {T : Type} (b : Board T) (hwf : b.WF) (xi yi : Nat)
    (h : xi ≥ b.width ∨ yi ≥ b.height) : b.get xi yi = none := by
  unfold Board.get
  cases hrow : b.board[yi]? with
  | none => rfl
  | some row =>
    rcases h with hw | hh
    · have hmem : row ∈ b.board := List.mem_iff_getElem?.mpr ⟨yi, hrow⟩
      show row[xi]? = none
      exact List.getElem?_eq_none (by rw [hwf.2 row hmem]; exact hw)
    · have : b.board[yi]? = none :=
        List.getElem?_eq_none (by rw [hwf.1]; exact hh)
      rw [this] at hrow
      exact Option.noConfusion hrow

theorem sum_range'_eq_sum_range (f : Nat → Int) (s n : Nat)
    (h : ∀ i, i < s → f i = 0) :
    ((List.range' s n).map f).sum = ((List.range (s + n)).map f).sum := by
  rw [List.range_eq_range']
  have hsplit : List.range' 0 s ++ List.range' s n = List.range' 0 (s + n) := by
    have h2 := List.range'_append 0 s n 1
    have h3 : 0 + 1 * s = s := by omega
    have h4 : n + s = s + n := by omega
    rw [h3, h4] at h2
    exact h2
  rw [← hsplit, List.map_append, List.sum_append]
  have hz : ((List.range' 0 s).map f).sum = 0 := by
    apply List.sum_eq_zero
    intro v hv
    rw [List.mem_map] at hv
    obtain ⟨i, hi, rfl⟩ := hv
    rw [List.mem_range'_1] at hi
    exact h i (by omega)
  rw [hz, zero_add]

theorem sum_range_truncate (f : Nat → Int) (m M : Nat) (hmM : m ≤ M)
    (h : ∀ i, m ≤ i → f i = 0) :
    ((List.range M).map f).sum = ((List.range m).map f).sum := by
  have hsplit : List.range' 0 m ++ List.range' m (M - m) = List.range' 0 M := by
    have h2 := List.range'_append 0 m (M - m) 1
    have h3 : 0 + 1 * m = m := by omega
    have h4 : M - m + m = M := by omega
    rw [h3, h4] at h2
    exact h2
  rw [List.range_eq_range', List.range_eq_range', ← hsplit, List.map_append,
    List.sum_append]
  have hz : ((List.range' m (M - m)).map f).sum = 0 := by
    apply List.sum_eq_zero
    intro v hv
    rw [List.mem_map] at hv
    obtain ⟨i, hi, rfl⟩ := hv
    rw [List.mem_range'_1] at hi
    exact h i hi.1
  rw [hz, add_zero]

theorem sum_range_eq_of_support (f : Nat → Int) (m M : Nat)
    (hm : ∀ i, m ≤ i → f i = 0) (hM : ∀ i, M ≤ i → f i = 0) :
    ((List.range M).map f).sum = ((List.range m).map f).sum := by
  rcases Nat.le_total m M with h | h
  · exact sum_range_truncate f m M h hm
  · exact (sum_range_truncate f M m h hM).symm

theorem checkSquare_eq_cast (b : Board Int) (hwf : b.WF) (x y : Nat) :
    b.checkSquare x y = (neighborhoodMineCount b x y : Int) := by
  have hinner : ∀ yi, y - 1 ≤ yi → yi ≤ y + 1 →
      ((List.range' (x - 1) (x + 2 - (x - 1))).map (fun xi =>
        if xi ≥ b.width ∨ yi ≥ b.height then 0
        else if b.get xi yi = some (-10) then (1 : Int) else 0)).sum =
      rowMineSum b x y yi := by
    intro yi hy1 hy2
    have hstep1 : ((List.range' (x - 1) (x + 2 - (x - 1))).map (fun xi =>
        if xi ≥ b.width ∨ yi ≥ b.height then 0
        else if b.get xi yi = some (-10) then (1 : Int) else 0)).sum =
        ((List.range' (x - 1) (x + 2 - (x - 1))).map (fun xi =>
          mineIndicator b x y xi yi)).sum := by
      congr 1
      apply List.map_congr_left
      intro xi hxi
      rw [List.mem_range'_1] at hxi
      have hxi2 : xi ≤ x + 1 := by omega
      have hxi1 : x ≤ xi + 1 := by omega
      unfold mineIndicator
      by_cases hb : xi ≥ b.width ∨ yi ≥ b.height
      · rw [if_pos hb, if_neg]
        rintro ⟨_, _, _, _, hmine⟩
        rw [get_eq_none_oob b hwf xi yi hb] at hmine
        exact Option.noConfusion hmine
      · rw [if_neg hb]
        by_cases hm : b.get xi yi = some (-10)
        · rw [if_pos hm, if_pos ⟨hxi1, hxi2, by omega, by omega, hm⟩]
        · rw [if_neg hm, if_neg (fun hcon => hm hcon.2.2.2.2)]
    rw [hstep1]
    rw [sum_range'_eq_sum_range (fun xi => mineIndicator b x y xi yi) (x - 1)
      (x + 2 - (x - 1)) ?_]
    · rw [show x - 1 + (x + 2 - (x - 1)) = x + 2 from by omega]
      unfold rowMineSum
      apply sum_range_eq_of_support
      · intro i hi
        simp only [mineIndicator]
        rw [if_neg]
        rintro ⟨_, _, _, _, hmine⟩
        rw [get_eq_none_oob b hwf i yi (Or.inl hi)] at hmine
        exact Option.noConfusion hmine
      · intro i hi
        simp only [mineIndicator]
        rw [if_neg]
        rintro ⟨_, h2, _⟩
        omega
    · intro i hi
      simp only [mineIndicator]
      rw [if_neg]
      rintro ⟨h1, _⟩
      omega
  unfold Board.checkSquare
  have hstep2 : ((List.range' (y - 1) (y + 2 - (y - 1))).map (fun yi =>
      ((List.range' (x - 1) (x + 2 - (x - 1))).map (fun xi =>
        if xi ≥ b.width ∨ yi ≥ b.height then 0
        else if b.get xi yi = some (-10) then (1 : Int) else 0)).sum)).sum =
      ((List.range' (y - 1) (y + 2 - (y - 1))).map (fun yi =>
        rowMineSum b x y yi)).sum := by
    congr 1
    apply List.map_congr_left
    intro yi hyi
    rw [List.mem_range'_1] at hyi
    exact hinner yi (by omega) (by omega)
  rw [hstep2]
  rw [sum_range'_eq_sum_range (fun yi => rowMineSum b x y yi) (y - 1)
    (y + 2 - (y - 1)) ?_]
  · rw [show y - 1 + (y + 2 - (y - 1)) = y + 2 from by omega]
    have hfinal : ((List.range (y + 2)).map (fun yi => rowMineSum b x y yi)).sum =
        ((List.range b.height).map (fun yi => rowMineSum b x y yi)).sum := by
      apply sum_range_eq_of_support
      · intro i hi
        simp only [rowMineSum]
        apply List.sum_eq_zero
        intro v hv
        rw [List.mem_map] at hv
        obtain ⟨xi, _, rfl⟩ := hv
        simp only [mineIndicator]
        rw [if_neg]
        rintro ⟨_, _, _, _, hmine⟩
        rw [get_eq_none_oob b hwf xi i (Or.inr hi)] at hmine
        exact Option.noConfusion hmine
      · intro i hi
        simp only [rowMineSum]
        apply List.sum_eq_zero
        intro v hv
        rw [List.mem_map] at hv
        obtain ⟨xi, _, rfl⟩ := hv
        simp only [mineIndicator]
        rw [if_neg]
        rintro ⟨_, _, _, h4, _⟩
        omega
    rw [hfinal]
    unfold neighborhoodMineCount
    rw [Nat.cast_list_sum, List.map_map]
    congr 1
    apply List.map_congr_left
    intro yi _
    simp only [Function.comp_apply]
    rw [Nat.cast_list_sum, List.map_map]
    unfold rowMineSum
    congr 1
    apply List.map_congr_left
    intro xi _
    simp only [Function.comp_apply]
    unfold mineIndicator
    split <;> simp
  · intro i hi
    simp only [rowMineSum]
    apply List.sum_eq_zero
    intro v hv
    rw [List.mem_map] at hv
    obtain ⟨xi, _, rfl⟩ := hv
    simp only [mineIndicator]
    rw [if_neg]
    rintro ⟨_, _, h3, _⟩
    omega

theorem sum_range_indicator (n k : Nat) (C : Prop) [Decidable C] :
    ((List.range n).map (fun i => if i = k ∧ C then (1 : Nat) else 0)).sum =
      if k < n ∧ C then 1 else 0 := by
  induction n with
  | zero => simp
  | succ n ih =>
    rw [List.range_succ, List.map_append, List.sum_append, ih]
    simp only [List.map_cons, List.map_nil, List.sum_cons, List.sum_nil,
      add_zero]
    by_cases hC : C
    · simp only [hC, and_true]
      split_ifs <;> omega
    · simp [hC]

/-- C9: for every well-formed Minesweeper board and in-bounds `(x, y)`,
`check_square` returns the number of mine cells among the in-bounds
positions of the 3×3 neighborhood centered at `(x, y)` (it is a pure
function of the board in this embedding, hence mutates nothing); with a
single mine at `(mx, my)` it returns 1 at every in-bounds neighbor of
the mine and 0 at every in-bounds cell neither adjacent nor equal to
it. -/
theorem check_square_spec (b : Board Int) (hwf : b.WF) (x y : Nat)
    (_hx : x < b.width) (_hy : y < b.height) :
    b.checkSquare x y = (neighborhoodMineCount b x y : Int) ∧
    (∀ mx my, mx < b.width → my < b.height →
      (∀ xi, xi < b.width → ∀ yi, yi < b.height →
          (b.get xi yi = some (-10) ↔ xi = mx ∧ yi = my)) →
      ((mx ≤ x + 1 ∧ x ≤ mx + 1 ∧ my ≤ y + 1 ∧ y ≤ my + 1 ∧
          ¬(x = mx ∧ y = my)) → b.checkSquare x y = 1) ∧
      (¬(mx ≤ x + 1 ∧ x ≤ mx + 1 ∧ my ≤ y + 1 ∧ y ≤ my + 1) →
          b.checkSquare x y = 0)) := by
  refine ⟨checkSquare_eq_cast b hwf x y, ?_⟩
  intro mx my hmx hmy hmine
  have hval : neighborhoodMineCount b x y =
      if mx ≤ x + 1 ∧ x ≤ mx + 1 ∧ my ≤ y + 1 ∧ y ≤ my + 1 then 1 else 0 := by
    unfold neighborhoodMineCount
    have hrow : ∀ yi, yi < b.height →
        ((List.range b.width).map (fun xi =>
          if x ≤ xi + 1 ∧ xi ≤ x + 1 ∧ y ≤ yi + 1 ∧ yi ≤ y + 1 ∧
             b.get xi yi = some (-10)
          then (1 : Nat) else 0)).sum =
        if yi = my ∧ (mx ≤ x + 1 ∧ x ≤ mx + 1 ∧ my ≤ y + 1 ∧ y ≤ my + 1)
        then 1 else 0 := by
      intro yi hyi
      have hterm : ((List.range b.width).map (fun xi =>
          if x ≤ xi + 1 ∧ xi ≤ x + 1 ∧ y ≤ yi + 1 ∧ yi ≤ y + 1 ∧
             b.get xi yi = some (-10)
          then (1 : Nat) else 0)) =
          ((List.range b.width).map (fun xi =>
            if xi = mx ∧ (yi = my ∧
                (mx ≤ x + 1 ∧ x ≤ mx + 1 ∧ my ≤ y + 1 ∧ y ≤ my + 1))
            then 1 else 0)) := by
        apply List.map_congr_left
        intro xi hxi
        rw [List.mem_range] at hxi
        apply if_congr ?_ rfl rfl
        rw [hmine xi hxi yi hyi]
        constructor
        · rintro ⟨h1, h2, h3, h4, rfl, rfl⟩
          exact ⟨rfl, rfl, h2, h1, h4, h3⟩
        · rintro ⟨rfl, rfl, hw1, hw2, hw3, hw4⟩
          exact ⟨hw2, hw1, hw4, hw3, rfl, rfl⟩
      rw [hterm, sum_range_indicator b.width mx _,
        if_congr (and_iff_right hmx) rfl rfl]
    have houter : ((List.range b.height).map (fun yi =>
        ((List.range b.width).map (fun xi =>
          if x ≤ xi + 1 ∧ xi ≤ x + 1 ∧ y ≤ yi + 1 ∧ yi ≤ y + 1 ∧
             b.get xi yi = some (-10)
          then (1 : Nat) else 0)).sum)).sum =
        ((List.range b.height).map (fun yi =>
          if yi = my ∧ (mx ≤ x + 1 ∧ x ≤ mx + 1 ∧ my ≤ y + 1 ∧ y ≤ my + 1)
          then 1 else 0)).sum := by
      congr 1
      apply List.map_congr_left
      intro yi hyi
      rw [List.mem_range] at hyi
      exact hrow yi hyi
    rw [houter, sum_range_indicator b.height my _,
      if_congr (and_iff_right hmy) rfl rfl]
  constructor
  · rintro ⟨hw1, hw2, hw3, hw4, _⟩
    rw [checkSquare_eq_cast b hwf x y, hval, if_pos ⟨hw1, hw2, hw3, hw4⟩]
    rfl
  · intro hnw
    rw [checkSquare_eq_cast b hwf x y, hval, if_neg hnw]
    rfl

/-- Witness for C9 on a 3×3 board with a single mine at `(1, 1)`:
`check_square(0, 0)` returns 1. -/
theorem check_square_spec_witness :
    ((isizeBoard 3 3).set 1 1 (-10)).checkSquare 0 0 = 1 :=
  (((check_square_spec ((isizeBoard 3 3).set 1 1 (-10)) (by decide) 0 0
      (by decide) (by decide)).2 1 1 (by decide) (by decide) (by decide)).1
    ⟨by decide, by decide, by decide, by decide, by decide⟩)

/-! ## Claim C4 (amended): the frame of update_board -/

theorem set_width {T : Type} (b : Board T) (x y : Nat) (v : T) :
    (b.set x y v).width = b.width := by
  unfold Board.set
  split <;> rfl

theorem set_height {T : Type} (b : Board T) (x y : Nat) (v : T) :
    (b.set x y v).height = b.height := by
  unfold Board.set
  split <;> rfl

theorem WF_set {T : Type} (b : Board T) (hwf : b.WF) (x y : Nat) (v : T) :
    (b.set x y v).WF := by
  unfold Board.set
  by_cases hb : y < b.height ∧ x < b.width
  · rw [if_pos hb]
    constructor
    · dsimp only
      rw [List.length_modify]
      exact hwf.1
    · intro row hrow
      dsimp only at hrow
      rw [List.mem_iff_getElem?] at hrow
      obtain ⟨i, hi⟩ := hrow
      rw [List.getElem?_modify] at hi
      cases horig : b.board[i]? with
      | none => rw [horig] at hi; exact absurd hi (by simp)
      | some r =>
        rw [horig] at hi
        simp only [Option.map_eq_map, Option.map_some', Option.some.injEq] at hi
        have hrmem : r ∈ b.board := List.mem_iff_getElem?.mpr ⟨i, horig⟩
        rw [← hi]
        by_cases hyi : y = i
        · rw [if_pos hyi, List.length_set]
          exact hwf.2 r hrmem
        · rw [if_neg hyi]
          exact hwf.2 r hrmem
  · rw [if_neg hb]
    exact hwf

theorem get_set {T : Type} (b : Board T) (hwf : b.WF) (x y : Nat) (v : T)
    (xi yi : Nat) :
    (b.set x y v).get xi yi =
      if x < b.width ∧ y < b.height ∧ xi = x ∧ yi = y then some v
      else b.get xi yi := by
  unfold Board.set Board.get
  by_cases hb : y < b.height ∧ x < b.width
  · rw [if_pos hb]
    dsimp only
    rw [List.getElem?_modify]
    cases hrow : b.board[yi]? with
    | none =>
      rw [if_neg]
      · rfl
      · rintro ⟨_, hyh, _, rfl⟩
        have hlt : yi < b.board.length := by rw [hwf.1]; exact hyh
        rw [List.getElem?_eq_getElem hlt] at hrow
        exact Option.noConfusion hrow
    | some row =>
      show (if y = yi then row.set x v else row)[xi]? = _
      by_cases hye : y = yi
      · subst hye
        rw [if_pos rfl, List.getElem?_set]
        have hrl : row.length = b.width :=
          hwf.2 row (List.mem_iff_getElem?.mpr ⟨y, hrow⟩)
        by_cases hxe : x = xi
        · subst hxe
          rw [if_pos rfl, if_pos (by rw [hrl]; exact hb.2),
            if_pos ⟨hb.2, hb.1, rfl, rfl⟩]
        · rw [if_neg hxe, if_neg (fun hcon => hxe hcon.2.2.1.symm)]
          rfl
      · rw [if_neg hye, if_neg (fun hcon => hye hcon.2.2.2.symm)]
        rfl
  · rw [if_neg hb, if_neg (fun hcon => hb ⟨hcon.2.1, hcon.1⟩)]

theorem foldl_invariant {α σ : Type} (P : σ → Prop) (f : σ → α → σ)
    (l : List α) (s : σ) (h0 : P s)
    (hstep : ∀ t a, a ∈ l → P t → P (f t a)) : P (l.foldl f s) := by
  induction l generalizing s with
  | nil => exact h0
  | cons a l ih =>
    rw [List.foldl_cons]
    exact ih (f s a) (hstep s a (List.mem_cons_self a l) h0)
      (fun t a' ha' => hstep t a' (List.mem_cons_of_mem a ha'))

/-- C4 amended: `update_board` changes only cells in the 3×3
neighborhood of the target: the target receives its proximity computed
on the pre-call board, the other in-bounds neighborhood cells are
recomputed sequentially (and can observably change, see the
counterexample), and every cell outside the neighborhood, as well as the
board dimensions, is unchanged. -/
theorem update_board_spec (b : Board Int) (hwf : b.WF) (x y : Nat)
    (hx : x < b.width) (hy : y < b.height) :
    (b.updateBoard x y).get x y = some (b.checkSquare x y) ∧
    (∀ xi yi, ¬(x ≤ xi + 1 ∧ xi ≤ x + 1 ∧ y ≤ yi + 1 ∧ yi ≤ y + 1) →
        (b.updateBoard x y).get xi yi = b.get xi yi) ∧
    (b.updateBoard x y).width = b.width ∧
    (b.updateBoard x y).height = b.height := by
  have hP : (fun acc : Board Int =>
      acc.WF ∧ acc.width = b.width ∧ acc.height = b.height ∧
      acc.get x y = some (b.checkSquare x y) ∧
      (∀ xi yi, ¬(x ≤ xi + 1 ∧ xi ≤ x + 1 ∧ y ≤ yi + 1 ∧ yi ≤ y + 1) →
          acc.get xi yi = b.get xi yi)) (b.updateBoard x y) := by
    unfold Board.updateBoard
    apply foldl_invariant (fun acc : Board Int =>
      acc.WF ∧ acc.width = b.width ∧ acc.height = b.height ∧
      acc.get x y = some (b.checkSquare x y) ∧
      (∀ xi yi, ¬(x ≤ xi + 1 ∧ xi ≤ x + 1 ∧ y ≤ yi + 1 ∧ yi ≤ y + 1) →
          acc.get xi yi = b.get xi yi))
    · -- initial state: the target cell has just been written
      refine ⟨WF_set b hwf x y _, set_width b x y _, set_height b x y _, ?_, ?_⟩
      · rw [get_set b hwf x y _ x y, if_pos ⟨hx, hy, rfl, rfl⟩]
      · intro xi yi hfar
        rw [get_set b hwf x y _ xi yi, if_neg]
        rintro ⟨_, _, rfl, rfl⟩
        exact hfar ⟨by omega, by omega, by omega, by omega⟩
    · -- each neighbor update preserves the invariant
      intro acc yi hyi hacc
      apply foldl_invariant (fun acc : Board Int =>
        acc.WF ∧ acc.width = b.width ∧ acc.height = b.height ∧
        acc.get x y = some (b.checkSquare x y) ∧
        (∀ xi yi, ¬(x ≤ xi + 1 ∧ xi ≤ x + 1 ∧ y ≤ yi + 1 ∧ yi ≤ y + 1) →
            acc.get xi yi = b.get xi yi))
      · exact hacc
      · intro acc2 xi hxi hacc2
        rw [List.mem_range'_1] at hyi hxi
        obtain ⟨hwfa, hwa, hha, htarget, hframe⟩ := hacc2
        by_cases hcenter : xi = x ∧ yi = y
        · rw [if_pos hcenter]
          exact ⟨hwfa, hwa, hha, htarget, hframe⟩
        · rw [if_neg hcenter]
          by_cases hdims : xi < acc2.width ∧ yi < acc2.height
          · rw [if_pos hdims]
            refine ⟨WF_set acc2 hwfa xi yi _, ?_, ?_, ?_, ?_⟩
            · rw [set_width]; exact hwa
            · rw [set_height]; exact hha
            · rw [get_set acc2 hwfa xi yi _ x y, if_neg]
              · exact htarget
              · rintro ⟨_, _, hxe, hye⟩
                exact hcenter ⟨hxe.symm, hye.symm⟩
            · intro xq yq hfar
              rw [get_set acc2 hwfa xi yi _ xq yq, if_neg]
              · exact hframe xq yq hfar
              · rintro ⟨_, _, rfl, rfl⟩
                exact hfar ⟨by omega, by omega, by omega, by omega⟩
          · rw [if_neg hdims]
            exact ⟨hwfa, hwa, hha, htarget, hframe⟩
  exact ⟨hP.2.2.2.1, hP.2.2.2.2, hP.2.1, hP.2.2.1⟩

/-- Witness for C4's amended theorem: on a 4×4 board with a mine at
`(3, 3)`, revealing `(0, 0)` leaves the mine cell untouched and writes
the target's proximity. -/
theorem update_board_spec_witness :
    ((((isizeBoard 4 4).set 3 3 (-10)).updateBoard 0 0).get 0 0 =
      some (((isizeBoard 4 4).set 3 3 (-10)).checkSquare 0 0)) ∧
    ((((isizeBoard 4 4).set 3 3 (-10)).updateBoard 0 0).get 3 3 =
      ((isizeBoard 4 4).set 3 3 (-10)).get 3 3) :=
  ⟨(update_board_spec ((isizeBoard 4 4).set 3 3 (-10)) (by decide) 0 0
      (by decide) (by decide)).1,
   (update_board_spec ((isizeBoard 4 4).set 3 3 (-10)) (by decide) 0 0
      (by decide) (by decide)).2.1 3 3 (by decide)⟩

end RustyMine
